import Mathlib

/-!
Verification of the optimistic-concurrency update/delete flow of the
bookstore front end (`src/app/authors/page.tsx` and
`src/app/authors/[id]/edit/page.tsx`).

Strings are modelled as `List Char`.  The JavaScript functions are embedded
shallowly: `normalizeETag` and friends become pure Lean functions; the
HTTP-calling functions become state-threading functions over an abstract
server, returning the ordered trace of issued requests.
-/

namespace BookstoreFront

/-! ## ETag normalization (authors/page.tsx lines 46-52; an identical copy
lives in authors/[id]/edit/page.tsx lines 14-20). -/

/-- JavaScript whitespace test used by `String.prototype.trim`. -/
def isWS (c : Char) : Bool := c.isWhitespace

/-- Model of `raw.trim()` : drop whitespace from both ends. -/
def jsTrim (l : List Char) : List Char :=
  List.rdropWhile isWS (List.dropWhile isWS l)

/-- Model of the weak-marker strip: drop a leading `W/` if present. -/
def stripWeak (l : List Char) : List Char :=
  if l.take 2 = ['W', '/'] then l.drop 2 else l

/-- Model of the quote strip: remove every double-quote character. -/
def quoteStrip (l : List Char) : List Char := l.filter (fun c => c ≠ '"')

/-- Wrap a string in one pair of double quotes. -/
def wrapQuotes (l : List Char) : List Char := '"' :: (l ++ ['"'])

/-- Function `normalizeETag` from authors/page.tsx lines 46-52.
`if (!raw) return null` is truthiness: both `null` and `""` map to `null`. -/
def normalizeETag : Option (List Char) → Option (List Char)
  | none => none
  | some raw =>
    if raw = [] then none
    else
      let tag := stripWeak (jsTrim raw)
      if tag.head? = some '"' then some tag
      else some (wrapQuotes (quoteStrip tag))

/-! ### Helper lemmas about trimming and quoting -/

theorem rdropWhile_decomp (p : Char → Bool) (X : List Char) :
    List.rdropWhile p X ++ (List.takeWhile p X.reverse).reverse = X := by
  rw [List.rdropWhile, ← List.reverse_append, List.takeWhile_append_dropWhile,
    List.reverse_reverse]

theorem head?_of_rdropWhile (p : Char → Bool) (X : List Char) (c : Char)
    (h : (List.rdropWhile p X).head? = some c) : X.head? = some c := by
  conv_lhs => rw [← rdropWhile_decomp p X]
  rw [List.head?_append, h]
  rfl

theorem jsTrim_head?_not (l : List Char) (c : Char)
    (h : (jsTrim l).head? = some c) : isWS c = false := by
  have h2 : (List.dropWhile isWS l).head? = some c :=
    head?_of_rdropWhile isWS (List.dropWhile isWS l) c h
  have h3 := List.head?_dropWhile_not isWS l
  rw [h2] at h3
  exact h3

theorem jsTrim_getLast?_not (l : List Char) (c : Char)
    (h : (jsTrim l).getLast? = some c) : isWS c = false := by
  have hne : jsTrim l ≠ [] := by
    intro hnil
    rw [hnil] at h
    exact Option.noConfusion h
  have h1 := List.rdropWhile_last_not isWS (List.dropWhile isWS l) hne
  have h2 : (jsTrim l).getLast? = some ((jsTrim l).getLast hne) :=
    List.getLast?_eq_getLast _ hne
  rw [h] at h2
  have h3 : c = (jsTrim l).getLast hne := Option.some.inj h2
  rw [h3]
  exact Bool.not_eq_true _ |>.mp h1

theorem stripWeak_of_quote (l : List Char) (h : l.head? = some '"') :
    stripWeak l = l := by
  cases l with
  | nil => exact absurd h (by simp)
  | cons a t =>
    have ha : a = '"' := by simpa using h
    subst ha
    unfold stripWeak
    rw [if_neg]
    intro hab
    rw [List.take_succ_cons] at hab
    exact absurd (List.head_eq_of_cons_eq hab) (by decide)

theorem stripWeak_getLast?_eq (u : List Char) (h : stripWeak u ≠ []) :
    (stripWeak u).getLast? = u.getLast? := by
  unfold stripWeak at h ⊢
  by_cases hw : u.take 2 = ['W', '/']
  · rw [if_pos hw] at h ⊢
    conv_rhs => rw [← List.take_append_drop 2 u]
    rw [List.getLast?_append]
    have hs : (u.drop 2).getLast?.isSome := List.getLast?_isSome.mpr h
    match hx : (u.drop 2).getLast? with
    | some a => rfl
    | none => rw [hx] at hs; exact absurd hs (by decide)
  · rw [if_neg hw]

theorem dropWhile_of_head_not (p : Char → Bool) (l : List Char) (c : Char)
    (hh : l.head? = some c) (hc : p c = false) : List.dropWhile p l = l := by
  match l, hh with
  | a :: t, hh =>
    have hac : a = c := Option.some.inj (by simpa using hh)
    rw [List.dropWhile_cons, hac, hc]
    simp

theorem rdropWhile_of_getLast_not (p : Char → Bool) (l : List Char) (c : Char)
    (hl : l.getLast? = some c) (hc : p c = false) :
    List.rdropWhile p l = l := by
  rw [List.rdropWhile_eq_self_iff]
  intro hne
  have h2 : l.getLast? = some (l.getLast hne) := List.getLast?_eq_getLast _ hne
  rw [hl] at h2
  rw [← Option.some.inj h2, hc]
  exact Bool.false_ne_true

theorem jsTrim_fixed (l : List Char) (c d : Char)
    (hh : l.head? = some c) (hcw : isWS c = false)
    (hl : l.getLast? = some d) (hdw : isWS d = false) : jsTrim l = l := by
  unfold jsTrim
  rw [dropWhile_of_head_not isWS l c hh hcw,
    rdropWhile_of_getLast_not isWS l d hl hdw]

theorem wrapQuotes_head? (s : List Char) : (wrapQuotes s).head? = some '"' := rfl

theorem wrapQuotes_getLast? (s : List Char) :
    (wrapQuotes s).getLast? = some '"' := by
  unfold wrapQuotes
  rw [← List.cons_append, List.getLast?_concat]

theorem quoteStrip_count (l : List Char) : (quoteStrip l).count '"' = 0 := by
  unfold quoteStrip
  rw [List.count_eq_zero]
  intro ha
  have h2 := List.of_mem_filter ha
  simp at h2

theorem wrapQuotes_count (s : List Char) (hs : s.count '"' = 0) :
    (wrapQuotes s).count '"' = 2 := by
  unfold wrapQuotes
  rw [List.count_cons_self, List.count_append, hs]
  rfl

/-- Unfolding lemma: `normalizeETag` on a nonempty raw string. -/
theorem normalizeETag_some (raw : List Char) (h0 : ¬raw = []) :
    normalizeETag (some raw) =
      if (stripWeak (jsTrim raw)).head? = some '"' then some (stripWeak (jsTrim raw))
      else some (wrapQuotes (quoteStrip (stripWeak (jsTrim raw)))) := by
  simp only [normalizeETag, if_neg h0]

/-- Shape of any non-null output of `normalizeETag`: nonempty, starts with a
quote, already trimmed, and carries no weak prefix marker. -/
theorem normalizeETag_fixed (raw t : List Char)
    (h : normalizeETag (some raw) = some t) :
    t ≠ [] ∧ t.head? = some '"' ∧ jsTrim t = t ∧ stripWeak t = t := by
  by_cases hr : raw = []
  · subst hr
    exact absurd h (by simp [normalizeETag])
  · rw [normalizeETag_some raw hr] at h
    by_cases hq : (stripWeak (jsTrim raw)).head? = some '"'
    · rw [if_pos hq] at h
      have ht : t = stripWeak (jsTrim raw) := (Option.some.inj h).symm
      have hne : t ≠ [] := by
        intro hnil
        rw [ht] at hnil
        rw [hnil] at hq
        exact Option.noConfusion hq
      have hhead : t.head? = some '"' := by rw [ht]; exact hq
      have hlast : ∀ d, t.getLast? = some d → isWS d = false := by
        intro d hd
        have hgl : (stripWeak (jsTrim raw)).getLast? = (jsTrim raw).getLast? :=
          stripWeak_getLast?_eq (jsTrim raw) (by rw [← ht]; exact hne)
        rw [ht, hgl] at hd
        exact jsTrim_getLast?_not raw d hd
      refine ⟨hne, hhead, ?_, stripWeak_of_quote t hhead⟩
      have hd : t.getLast?.isSome := List.getLast?_isSome.mpr hne
      match hx : t.getLast? with
      | some d =>
          exact jsTrim_fixed t '"' d hhead (by decide) hx (hlast d hx)
      | none => rw [hx] at hd; exact absurd hd (by decide)
    · rw [if_neg hq] at h
      have ht : t = wrapQuotes (quoteStrip (stripWeak (jsTrim raw))) :=
        (Option.some.inj h).symm
      have hhead : t.head? = some '"' := by rw [ht]; exact wrapQuotes_head? _
      have hlast : t.getLast? = some '"' := by rw [ht]; exact wrapQuotes_getLast? _
      have hne : t ≠ [] := by rw [ht]; exact List.cons_ne_nil _ _
      refine ⟨hne, hhead, ?_, stripWeak_of_quote t hhead⟩
      exact jsTrim_fixed t '"' '"' hhead (by decide) hlast (by decide)

/-! ### Claims C7-C10 -/

/-- C7 counterexample: on the raw header `"`, which already starts with a
quote character, `normalizeETag` returns it unchanged, so the output contains
exactly one quote character, not two as the claim requires. -/
theorem normalizeETag_single_quote_cex :
    normalizeETag (some ['"']) = some ['"'] ∧ (['"'] : List Char).count '"' ≠ 2 := by
  constructor
  · rfl
  · decide

/-- C7 (amended): for every non-null, nonempty raw header string whose
trimmed, weak-prefix-stripped form does not already start with a quote
character, `normalizeETag` returns that form with every embedded quote
character removed, wrapped in exactly one pair of quote characters — so the
result has exactly two quote characters, one first and one last. -/
theorem normalizeETag_wrap (raw : List Char) (h0 : raw ≠ [])
    (hq : (stripWeak (jsTrim raw)).head? ≠ some '"') :
    normalizeETag (some raw)
      = some (wrapQuotes (quoteStrip (stripWeak (jsTrim raw)))) ∧
    (wrapQuotes (quoteStrip (stripWeak (jsTrim raw)))).count '"' = 2 ∧
    (wrapQuotes (quoteStrip (stripWeak (jsTrim raw)))).head? = some '"' ∧
    (wrapQuotes (quoteStrip (stripWeak (jsTrim raw)))).getLast? = some '"' := by
  refine ⟨?_, wrapQuotes_count _ (quoteStrip_count _), wrapQuotes_head? _,
    wrapQuotes_getLast? _⟩
  rw [normalizeETag_some raw h0, if_neg hq]

/-- Witness for the amended C7 at the concrete raw header `abc`. -/
theorem normalizeETag_wrap_witness :
    normalizeETag (some ['a', 'b', 'c'])
      = some (wrapQuotes (quoteStrip (stripWeak (jsTrim ['a', 'b', 'c'])))) ∧
    (wrapQuotes (quoteStrip (stripWeak (jsTrim ['a', 'b', 'c'])))).count '"' = 2 ∧
    (wrapQuotes (quoteStrip (stripWeak (jsTrim ['a', 'b', 'c'])))).head? = some '"' ∧
    (wrapQuotes (quoteStrip (stripWeak (jsTrim ['a', 'b', 'c'])))).getLast? = some '"' :=
  normalizeETag_wrap ['a', 'b', 'c'] (by decide) (by decide)

/-- C8: the raw header `W/"abc"` normalizes to `"abc"`, bare `abc` normalizes to `"abc"`,
and `null` normalizes to `null`. -/
theorem normalizeETag_examples :
    normalizeETag (some ['W', '/', '"', 'a', 'b', 'c', '"'])
      = some ['"', 'a', 'b', 'c', '"'] ∧
    normalizeETag (some ['a', 'b', 'c']) = some ['"', 'a', 'b', 'c', '"'] ∧
    normalizeETag none = none := by
  refine ⟨?_, ?_, rfl⟩ <;> decide

/-- C9: the function `normalizeETag` is idempotent on every input, string or null. -/
theorem normalizeETag_idem (x : Option (List Char)) :
    normalizeETag (normalizeETag x) = normalizeETag x := by
  match x with
  | none => rfl
  | some raw =>
    match h : normalizeETag (some raw) with
    | none => rfl
    | some t =>
      obtain ⟨hne, hhead, htrim, hstrip⟩ := normalizeETag_fixed raw t h
      rw [normalizeETag_some t hne, htrim, hstrip, if_pos hhead]

/-- C10: the function `normalizeETag` returns null exactly on the null and empty-string
inputs; every nonempty raw value whose trimmed, stripped form is empty (such
as whitespace-only or a bare weak marker) yields the quoted empty string. -/
theorem normalizeETag_null_iff :
    (∀ x : Option (List Char),
      normalizeETag x = none ↔ (x = none ∨ x = some [])) ∧
    (∀ raw : List Char, raw ≠ [] → stripWeak (jsTrim raw) = [] →
      normalizeETag (some raw) = some ['"', '"']) := by
  constructor
  · intro x
    match x with
    | none => simp [normalizeETag]
    | some raw =>
      by_cases hr : raw = []
      · subst hr; simp [normalizeETag]
      · rw [normalizeETag_some raw hr]
        constructor
        · intro h
          by_cases hq : (stripWeak (jsTrim raw)).head? = some '"'
          · rw [if_pos hq] at h; exact absurd h (by simp)
          · rw [if_neg hq] at h; exact absurd h (by simp)
        · intro h
          rcases h with h | h
          · exact absurd h (by simp)
          · exact absurd (Option.some.inj h) hr
  · intro raw h0 hnil
    rw [normalizeETag_some raw h0, hnil]
    rfl

/-- Witness for C10: the whitespace-only header `"  "` is nonempty, reduces
to the empty string, and normalizes to the quoted empty string. -/
theorem normalizeETag_null_iff_witness :
    normalizeETag (some [' ', ' ']) = some ['"', '"'] :=
  normalizeETag_null_iff.2 [' ', ' '] (by decide) (by decide)


/-! ## HTTP effect model

The remote REST API is an abstract stateful server.  Every client function
from authors/page.tsx is embedded as a function from a server state to a
result, the final server state, and the ordered trace of issued requests.
-/

/-- Resource paths used by the cascade (`/api/authors/{id}`, `/api/books/{id}`,
`/api/prizes/{id}`). -/
inductive Path
  | author (id : Nat)
  | book (id : Nat)
  | prize (id : Nat)
deriving DecidableEq

inductive Method
  | GET
  | HEAD
  | PUT
  | DELETE
deriving DecidableEq

/-- Lightweight relation reference (`BookLite` / `PrizeLite` / `AuthorRef`). -/
structure Lite where
  id : Nat
  name : Option (List Char)
deriving DecidableEq

/-- Model of `BookEntity` / `PrizeEntity`: the JSON body of a book or prize, with the
three possible author-relation shapes.  `Option` nesting distinguishes a
property that is absent (`none`) from one present with value `null`
(`some none`), matching the JavaScript `delete` / `= null` distinction. -/
structure Entity where
  id : Nat
  name : Option (List Char)
  author : Option (Option Lite)
  authorId : Option (Option Int)
  authors : Option (List Lite)
deriving DecidableEq

/-- Model of `Author` from authors/page.tsx: `books` / `prizes` are optional arrays. -/
structure Author where
  id : Nat
  name : List Char
  description : List Char
  birthDate : List Char
  image : List Char
  books : Option (List Lite)
  prizes : Option (List Lite)
deriving DecidableEq

/-- Junk values produced by the unchecked `as T` casts on response bodies. -/
def dEnt : Entity := ⟨0, none, none, none, none⟩

def dAuthor : Author := ⟨0, [], [], [], [], none, none⟩

/-- A JSON response body as far as this client inspects it. -/
inductive BodyVal
  | ent (e : Entity)
  | auth (a : Author)
  | empty
deriving DecidableEq

/-- Model of `(await res.json()) as BookEntity` — an unchecked cast. -/
def BodyVal.toEntity : BodyVal → Entity
  | .ent e => e
  | _ => dEnt

/-- Model of `(await res.json()) as Author` — an unchecked cast. -/
def BodyVal.toAuthor : BodyVal → Author
  | .auth a => a
  | _ => dAuthor

/-- An HTTP response: `ok` flag, status, raw `ETag` header, parsed body and
body text. -/
structure Resp where
  ok : Bool
  status : Nat
  etag : Option (List Char)
  body : BodyVal
  text : List Char
deriving DecidableEq

/-- An HTTP request as issued by the client: method, path, `If-Match` header
(if set) and PUT payload (if any). -/
structure Request where
  method : Method
  path : Path
  ifMatch : Option (List Char)
  payload : Option Entity
deriving DecidableEq

def getReq (p : Path) : Request := ⟨.GET, p, none, none⟩

def headReq (p : Path) : Request := ⟨.HEAD, p, none, none⟩

def putReq (p : Path) (tok : List Char) (body : Entity) : Request :=
  ⟨.PUT, p, some tok, some body⟩

def delReq (p : Path) (tok : List Char) : Request :=
  ⟨.DELETE, p, some tok, none⟩

/-- The `If-Match` wildcard `"*"`. -/
def wildcard : List Char := ['*']

/-- The abstract API server: a deterministic transition function on an
arbitrary state type.  Responses may depend on the full history through the
state. -/
structure Server (σ : Type) where
  step : σ → Request → Resp × σ

/-- Errors thrown by the client code, carrying exactly the data embedded into
the JavaScript `Error` messages. -/
inductive Err
  | getFailed (p : Path) (status : Nat)
  | deleteFailed (p : Path) (status : Nat) (body : List Char)
  | authorGetFailed (status : Nat)
  | authorDeleteFailed (aid : Nat) (status : Nat) (body : List Char)
deriving DecidableEq

/-! ## Client functions (authors/page.tsx lines 53-201, 228-238) -/

/-- Function `fetchETag` (lines 53-61): HEAD, falling back to GET; returns the
normalized token of whichever response succeeded, or `null`. -/
def fetchETag {σ : Type} (sv : Server σ) (p : Path) (s : σ) :
    Option (List Char) × σ × List Request :=
  match sv.step s (headReq p) with
  | (r1, s1) =>
    if r1.ok then (normalizeETag r1.etag, s1, [headReq p])
    else
      match sv.step s1 (getReq p) with
      | (r2, s2) =>
        if r2.ok then (normalizeETag r2.etag, s2, [headReq p, getReq p])
        else (none, s2, [headReq p, getReq p])

/-- Function `updateJsonWithETag` (lines 63-86): GET the resource (throwing on a
non-ok status), apply `mutate` to a clone of the body, and PUT it back with
`If-Match` set to the normalized token or `"*"`.  The raw PUT response is
returned whether or not it succeeded. -/
def updateJsonWithETag {σ : Type} (sv : Server σ) (p : Path)
    (mutate : Entity → Entity) (s : σ) : Except Err Resp × σ × List Request :=
  match sv.step s (getReq p) with
  | (rg, s1) =>
    if rg.ok then
      match sv.step s1
          (putReq p ((normalizeETag rg.etag).getD wildcard)
            (mutate rg.body.toEntity)) with
      | (rp, s2) =>
        (.ok rp, s2,
          [getReq p,
            putReq p ((normalizeETag rg.etag).getD wildcard)
              (mutate rg.body.toEntity)])
    else (.error (.getFailed p rg.status), s1, [getReq p])

/-- Detach strategy 1: `json.author = null; if ("authorId" in json)
json.authorId = null`. -/
def attempt1 (j : Entity) : Entity :=
  { j with author := some none,
           authorId := if j.authorId.isSome then some none else j.authorId }

/-- Detach strategy 2: `delete json.author; if ("authorId" in json)
json.authorId = null`. -/
def attempt2 (j : Entity) : Entity :=
  { j with author := none,
           authorId := if j.authorId.isSome then some none else j.authorId }

/-- Detach strategy 3: `if (Array.isArray(json.authors)) json.authors = [];
delete json.author; if ("authorId" in json) json.authorId = null`. -/
def attempt3 (j : Entity) : Entity :=
  { j with authors := if j.authors.isSome then some [] else j.authors,
           author := none,
           authorId := if j.authorId.isSome then some none else j.authorId }

/-- The fixed, ordered strategy list used (identically) by both
`detachAuthorAndDeleteBook` and `detachAuthorAndDeletePrize`. -/
def attempts : List (Entity → Entity) := [attempt1, attempt2, attempt3]

/-- Loop body for the detach attempts: run conditional updates in
order, stopping at the first whose write succeeds.  A thrown error (failed
initial GET) propagates. -/
def runAttempts {σ : Type} (sv : Server σ) (p : Path) :
    List (Entity → Entity) → σ → Except Err Unit × σ × List Request
  | [], s => (.ok (), s, [])
  | m :: rest, s =>
    match updateJsonWithETag sv p m s with
    | (.error e, s1, t1) => (.error e, s1, t1)
    | (.ok rp, s1, t1) =>
      if rp.ok then (.ok (), s1, t1)
      else
        match runAttempts sv p rest s1 with
        | (r, s2, t2) => (r, s2, t1 ++ t2)

/-- Common body of `detachAuthorAndDeleteBook` (lines 93-133) and
`detachAuthorAndDeletePrize` (lines 135-170): run the detach attempts, then
DELETE the resource with a freshly fetched token (or `"*"`), raising an
error carrying the HTTP status and response body if the DELETE is not ok. -/
def detachAuthorAndDelete {σ : Type} (sv : Server σ) (p : Path) (s : σ) :
    Except Err Unit × σ × List Request :=
  match runAttempts sv p attempts s with
  | (.error e, s1, t1) => (.error e, s1, t1)
  | (.ok _, s1, t1) =>
    match fetchETag sv p s1 with
    | (tok, s2, t2) =>
      match sv.step s2 (delReq p (tok.getD wildcard)) with
      | (rd, s3) =>
        if rd.ok then (.ok (), s3, t1 ++ t2 ++ [delReq p (tok.getD wildcard)])
        else
          (.error (.deleteFailed p rd.status rd.text), s3,
            t1 ++ t2 ++ [delReq p (tok.getD wildcard)])

def detachAuthorAndDeleteBook {σ : Type} (sv : Server σ) (bookId : Nat)
    (s : σ) : Except Err Unit × σ × List Request :=
  detachAuthorAndDelete sv (.book bookId) s

def detachAuthorAndDeletePrize {σ : Type} (sv : Server σ) (prizeId : Nat)
    (s : σ) : Except Err Unit × σ × List Request :=
  detachAuthorAndDelete sv (.prize prizeId) s

/-- Iteration running `detachAuthorAndDelete` over each relation
reference in listed order; the first raised error aborts the loop. -/
def detachAll {σ : Type} (sv : Server σ) (mk : Nat → Path) :
    List Lite → σ → Except Err Unit × σ × List Request
  | [], s => (.ok (), s, [])
  | x :: xs, s =>
    match detachAuthorAndDelete sv (mk x.id) s with
    | (.error e, s1, t1) => (.error e, s1, t1)
    | (.ok _, s1, t1) =>
      match detachAll sv mk xs s1 with
      | (r, s2, t2) => (r, s2, t1 ++ t2)

/-- Steps 2 and 3 of `deleteAuthorAggressive`: all prizes (in listed order),
then all books (in listed order). -/
def relationsPhase {σ : Type} (sv : Server σ) (a : Author) (s : σ) :
    Except Err Unit × σ × List Request :=
  match detachAll sv Path.prize (a.prizes.getD []) s with
  | (.error e, s1, t1) => (.error e, s1, t1)
  | (.ok _, s1, t1) =>
    match detachAll sv Path.book (a.books.getD []) s1 with
    | (r, s2, t2) => (r, s2, t1 ++ t2)

/-- Function `deleteAuthorAggressive` (lines 173-201): read the author (fail fast),
detach and delete every prize then every book, then DELETE the author with
the token captured from the initial read (or `"*"`). -/
def deleteAuthorAggressive {σ : Type} (sv : Server σ) (authorId : Nat)
    (s : σ) : Except Err Unit × σ × List Request :=
  match sv.step s (getReq (.author authorId)) with
  | (rg, s1) =>
    if rg.ok then
      match relationsPhase sv rg.body.toAuthor s1 with
      | (.error e, s2, t) => (.error e, s2, getReq (.author authorId) :: t)
      | (.ok _, s2, t) =>
        match sv.step s2
            (delReq (.author authorId)
              ((normalizeETag rg.etag).getD wildcard)) with
        | (rd, s3) =>
          if rd.ok then
            (.ok (), s3,
              getReq (.author authorId) :: t ++
                [delReq (.author authorId)
                  ((normalizeETag rg.etag).getD wildcard)])
          else
            (.error (.authorDeleteFailed authorId rd.status rd.text), s3,
              getReq (.author authorId) :: t ++
                [delReq (.author authorId)
                  ((normalizeETag rg.etag).getD wildcard)])
    else (.error (.authorGetFailed rg.status), s1, [getReq (.author authorId)])

/-- The relevant UI state of `AuthorsPage`: the displayed author list and the
busy marker. -/
structure UIState where
  authors : List Author
  deletingId : Option Nat
deriving DecidableEq

/-- Function `handleDelete` (lines 228-238): set the busy marker, run the cascade,
filter the list only on success, and clear the busy marker in `finally`. -/
def handleDelete {σ : Type} (sv : Server σ) (id : Nat) (ui : UIState)
    (s : σ) : UIState × σ × List Request :=
  match deleteAuthorAggressive sv id s with
  | (.ok _, s1, t) =>
    (⟨ui.authors.filter (fun a => a.id ≠ id), none⟩, s1, t)
  | (.error _, s1, t) => (⟨ui.authors, none⟩, s1, t)

/-! ## Trace lemmas -/

theorem fetchETag_trace {σ : Type} (sv : Server σ) (p : Path) (s : σ) :
    ∀ q ∈ (fetchETag sv p s).2.2,
      q.path = p ∧ (q.method = Method.HEAD ∨ q.method = Method.GET) := by
  rcases h1 : sv.step s (headReq p) with ⟨r1, s1⟩
  rcases h2 : sv.step s1 (getReq p) with ⟨r2, s2⟩
  by_cases hok : r1.ok
  · simp only [fetchETag, h1, if_pos hok]
    intro q hq
    rcases List.mem_singleton.mp hq with rfl
    exact ⟨rfl, Or.inl rfl⟩
  · by_cases hok2 : r2.ok <;>
    · simp only [fetchETag, h1, if_neg hok, h2, if_pos, if_neg, hok2]
      intro q hq
      rcases List.mem_cons.mp hq with rfl | hq
      · exact ⟨rfl, Or.inl rfl⟩
      · rcases List.mem_singleton.mp hq with rfl
        exact ⟨rfl, Or.inr rfl⟩

theorem updateJsonWithETag_trace {σ : Type} (sv : Server σ) (p : Path)
    (m : Entity → Entity) (s : σ) :
    ∀ q ∈ (updateJsonWithETag sv p m s).2.2,
      q.path = p ∧ (q.method = Method.GET ∨ q.method = Method.PUT) := by
  rcases hg : sv.step s (getReq p) with ⟨rg, s1⟩
  by_cases hok : rg.ok
  · rcases hp : sv.step s1
        (putReq p ((normalizeETag rg.etag).getD wildcard) (m rg.body.toEntity))
      with ⟨rp, s2⟩
    simp only [updateJsonWithETag, hg, if_pos hok, hp]
    intro q hq
    rcases List.mem_cons.mp hq with rfl | hq
    · exact ⟨rfl, Or.inl rfl⟩
    · rcases List.mem_singleton.mp hq with rfl
      exact ⟨rfl, Or.inr rfl⟩
  · simp only [updateJsonWithETag, hg, if_neg hok]
    intro q hq
    rcases List.mem_singleton.mp hq with rfl
    exact ⟨rfl, Or.inl rfl⟩

theorem runAttempts_trace {σ : Type} (sv : Server σ) (p : Path)
    (ms : List (Entity → Entity)) :
    ∀ s : σ, ∀ q ∈ (runAttempts sv p ms s).2.2,
      q.path = p ∧ (q.method = Method.GET ∨ q.method = Method.PUT) := by
  induction ms with
  | nil => intro s q hq; simp [runAttempts] at hq
  | cons m rest ih =>
    intro s q hq
    rcases hu : updateJsonWithETag sv p m s with ⟨res, s1, t1⟩
    have ht1 : ∀ r ∈ t1, r.path = p ∧ (r.method = Method.GET ∨ r.method = Method.PUT) := by
      have h0 := updateJsonWithETag_trace sv p m s
      rw [hu] at h0
      exact h0
    cases res with
    | error e =>
      rw [show runAttempts sv p (m :: rest) s = (.error e, s1, t1) by
        simp [runAttempts, hu]] at hq
      exact ht1 q hq
    | ok rp =>
      by_cases hok : rp.ok
      · rw [show runAttempts sv p (m :: rest) s = (.ok (), s1, t1) by
          simp [runAttempts, hu, hok]] at hq
        exact ht1 q hq
      · rcases hr : runAttempts sv p rest s1 with ⟨r2, s2, t2⟩
        rw [show runAttempts sv p (m :: rest) s = (r2, s2, t1 ++ t2) by
          simp [runAttempts, hu, hok, hr]] at hq
        rcases List.mem_append.mp hq with h | h
        · exact ht1 q h
        · have h2 := ih s1
          rw [hr] at h2
          exact h2 q h

theorem detach_trace {σ : Type} (sv : Server σ) (p : Path) (s : σ) :
    ∀ q ∈ (detachAuthorAndDelete sv p s).2.2, q.path = p := by
  rcases ha : runAttempts sv p attempts s with ⟨res, s1, t1⟩
  have ht1 : ∀ r ∈ t1, r.path = p := by
    have h0 := runAttempts_trace sv p attempts s
    rw [ha] at h0
    exact fun r hr => (h0 r hr).1
  cases res with
  | error e =>
    intro q hq
    rw [show detachAuthorAndDelete sv p s = (.error e, s1, t1) by
      simp [detachAuthorAndDelete, ha]] at hq
    exact ht1 q hq
  | ok u =>
    rcases hf : fetchETag sv p s1 with ⟨tok, s2, t2⟩
    have ht2 : ∀ r ∈ t2, r.path = p := by
      have h0 := fetchETag_trace sv p s1
      rw [hf] at h0
      exact fun r hr => (h0 r hr).1
    rcases hd : sv.step s2 (delReq p (tok.getD wildcard)) with ⟨rd, s3⟩
    intro q hq
    have htr : (detachAuthorAndDelete sv p s).2.2
        = t1 ++ t2 ++ [delReq p (tok.getD wildcard)] := by
      by_cases hdo : rd.ok <;>
        simp [detachAuthorAndDelete, ha, hf, hd, hdo]
    rw [htr] at hq
    rcases List.mem_append.mp hq with h | h
    · rcases List.mem_append.mp h with h | h
      · exact ht1 q h
      · exact ht2 q h
    · rcases List.mem_singleton.mp h with rfl
      rfl

/-- Predicate: `segs` is, in order, the per-item request segments for an initial run of
`xs`: segment `i` only touches the path of item `i`. -/
def Segmented (mk : Nat → Path) (xs : List Lite) (segs : List (List Request)) : Prop :=
  segs.length ≤ xs.length ∧
  ∀ (i : Nat) (hi : i < segs.length) (hx : i < xs.length),
    ∀ q ∈ segs.get ⟨i, hi⟩, q.path = mk (xs.get ⟨i, hx⟩).id

theorem segmented_nil (mk : Nat → Path) (xs : List Lite) : Segmented mk xs [] := by
  refine ⟨Nat.zero_le _, ?_⟩
  intro i hi
  exact absurd hi (by simp)

theorem detachAll_segmented {σ : Type} (sv : Server σ) (mk : Nat → Path)
    (xs : List Lite) :
    ∀ s : σ, ∃ segs : List (List Request),
      (detachAll sv mk xs s).2.2 = segs.flatten ∧ Segmented mk xs segs := by
  induction xs with
  | nil =>
    intro s
    exact ⟨[], by simp [detachAll], segmented_nil mk []⟩
  | cons x rest ih =>
    intro s
    rcases hd : detachAuthorAndDelete sv (mk x.id) s with ⟨res, s1, t1⟩
    have ht1 : ∀ q ∈ t1, q.path = mk x.id := by
      have h0 := detach_trace sv (mk x.id) s
      rw [hd] at h0
      exact h0
    cases res with
    | error e =>
      refine ⟨[t1], ?_, ?_, ?_⟩
      · simp [detachAll, hd]
      · simp
      · intro i hi hx q hq
        have hi0 : i = 0 := Nat.lt_one_iff.mp (by simpa using hi)
        subst hi0
        exact ht1 q (by simpa using hq)
    | ok u =>
      rcases ih s1 with ⟨segs, hseg, hlen, hall⟩
      rcases hr : detachAll sv mk rest s1 with ⟨r2, s2, t2⟩
      rw [hr] at hseg
      have hseg2 : t2 = segs.flatten := hseg
      refine ⟨t1 :: segs, ?_, ?_, ?_⟩
      · simp [detachAll, hd, hr, hseg2]
      · simpa using Nat.succ_le_succ hlen
      · intro i hi hx q hq
        cases i with
        | zero => exact ht1 q (by simpa using hq)
        | succ j =>
          exact hall j (by simpa using hi) (by simpa using hx) q (by simpa using hq)

theorem relationsPhase_segmented {σ : Type} (sv : Server σ) (a : Author) (s : σ) :
    ∃ segsP segsB,
      (relationsPhase sv a s).2.2 = segsP.flatten ++ segsB.flatten ∧
      Segmented Path.prize (a.prizes.getD []) segsP ∧
      Segmented Path.book (a.books.getD []) segsB := by
  rcases hp : detachAll sv Path.prize (a.prizes.getD []) s with ⟨res, s1, t1⟩
  obtain ⟨segsP, hP1, hP2⟩ := detachAll_segmented sv Path.prize (a.prizes.getD []) s
  rw [hp] at hP1
  cases res with
  | error e =>
    have hP1b : t1 = segsP.flatten := hP1
    refine ⟨segsP, [], ?_, hP2, segmented_nil _ _⟩
    simp [relationsPhase, hp, hP1b]
  | ok u =>
    have hP1b : t1 = segsP.flatten := hP1
    obtain ⟨segsB, hB1, hB2⟩ := detachAll_segmented sv Path.book (a.books.getD []) s1
    rcases hb : detachAll sv Path.book (a.books.getD []) s1 with ⟨r2, s2, t2⟩
    rw [hb] at hB1
    have hB1b : t2 = segsB.flatten := hB1
    exact ⟨segsP, segsB, by simp [relationsPhase, hp, hb, hP1b, hB1b], hP2, hB2⟩

theorem detachAll_trace_paths {σ : Type} (sv : Server σ) (mk : Nat → Path)
    (xs : List Lite) :
    ∀ s : σ, ∀ q ∈ (detachAll sv mk xs s).2.2, ∃ x, x ∈ xs ∧ q.path = mk x.id := by
  induction xs with
  | nil => intro s q hq; simp [detachAll] at hq
  | cons x rest ih =>
    intro s q hq
    rcases hd : detachAuthorAndDelete sv (mk x.id) s with ⟨res, s1, t1⟩
    have ht1 : ∀ r ∈ t1, r.path = mk x.id := by
      have h0 := detach_trace sv (mk x.id) s
      rw [hd] at h0
      exact h0
    cases res with
    | error e =>
      rw [show detachAll sv mk (x :: rest) s = (.error e, s1, t1) by
        simp [detachAll, hd]] at hq
      exact ⟨x, List.mem_cons_self x rest, ht1 q hq⟩
    | ok u =>
      rcases hr : detachAll sv mk rest s1 with ⟨r2, s2, t2⟩
      rw [show detachAll sv mk (x :: rest) s = (r2, s2, t1 ++ t2) by
        simp [detachAll, hd, hr]] at hq
      rcases List.mem_append.mp hq with h | h
      · exact ⟨x, List.mem_cons_self x rest, ht1 q h⟩
      · have h2 := ih s1
        rw [hr] at h2
        obtain ⟨y, hy, hyp⟩ := h2 q h
        exact ⟨y, List.mem_cons_of_mem x hy, hyp⟩

theorem relationsPhase_trace_paths {σ : Type} (sv : Server σ) (a : Author) (s : σ) :
    ∀ q ∈ (relationsPhase sv a s).2.2,
      (∃ i, q.path = Path.prize i) ∨ (∃ i, q.path = Path.book i) := by
  rcases hp : detachAll sv Path.prize (a.prizes.getD []) s with ⟨res, s1, t1⟩
  have ht1 : ∀ q ∈ t1, ∃ i, q.path = Path.prize i := by
    have h0 := detachAll_trace_paths sv Path.prize (a.prizes.getD []) s
    rw [hp] at h0
    exact fun q hq => (h0 q hq).elim fun x hx => ⟨x.id, hx.2⟩
  cases res with
  | error e =>
    intro q hq
    rw [show relationsPhase sv a s = (.error e, s1, t1) by
      simp [relationsPhase, hp]] at hq
    exact Or.inl (ht1 q hq)
  | ok u =>
    rcases hb : detachAll sv Path.book (a.books.getD []) s1 with ⟨r2, s2, t2⟩
    have ht2 : ∀ q ∈ t2, ∃ i, q.path = Path.book i := by
      have h0 := detachAll_trace_paths sv Path.book (a.books.getD []) s1
      rw [hb] at h0
      exact fun q hq => (h0 q hq).elim fun x hx => ⟨x.id, hx.2⟩
    intro q hq
    rw [show relationsPhase sv a s = (r2, s2, t1 ++ t2) by
      simp [relationsPhase, hp, hb]] at hq
    rcases List.mem_append.mp hq with h | h
    · exact Or.inl (ht1 q h)
    · exact Or.inr (ht2 q h)

/-! ## Claims about the cascade -/

/-- C1: when the initial author read succeeds, the cascade trace is the
author GET, then per-prize detach-and-delete segments in listed order, then
per-book segments in listed order, and finally — only if no relation raised —
a single author DELETE carrying the token captured from the initial read
(normalized, or the wildcard `*` when absent). -/
theorem deleteAuthorAggressive_order {σ : Type} (sv : Server σ) (s s1 : σ)
    (aid : Nat) (rg : Resp)
    (h : sv.step s (getReq (Path.author aid)) = (rg, s1)) (hok : rg.ok = true) :
    ∃ segsP segsB rest,
      (deleteAuthorAggressive sv aid s).2.2
        = getReq (Path.author aid) :: (segsP.flatten ++ segsB.flatten ++ rest) ∧
      Segmented Path.prize (rg.body.toAuthor.prizes.getD []) segsP ∧
      Segmented Path.book (rg.body.toAuthor.books.getD []) segsB ∧
      ((rest = [] ∧ ∃ e, (deleteAuthorAggressive sv aid s).1 = Except.error e) ∨
        rest = [delReq (Path.author aid) ((normalizeETag rg.etag).getD wildcard)]) := by
  obtain ⟨segsP, segsB, htr, hP, hB⟩ := relationsPhase_segmented sv rg.body.toAuthor s1
  rcases hrel : relationsPhase sv rg.body.toAuthor s1 with ⟨res, s2, t⟩
  rw [hrel] at htr
  have htr2 : t = segsP.flatten ++ segsB.flatten := htr
  cases res with
  | error e =>
    refine ⟨segsP, segsB, [], ?_, hP, hB, Or.inl ⟨rfl, e, ?_⟩⟩
    · simp [deleteAuthorAggressive, h, hok, hrel, htr2]
    · simp [deleteAuthorAggressive, h, hok, hrel]
  | ok u =>
    rcases hd : sv.step s2
        (delReq (Path.author aid) ((normalizeETag rg.etag).getD wildcard))
      with ⟨rd, s3⟩
    refine ⟨segsP, segsB,
      [delReq (Path.author aid) ((normalizeETag rg.etag).getD wildcard)],
      ?_, hP, hB, Or.inr rfl⟩
    by_cases hdo : rd.ok <;>
      simp [deleteAuthorAggressive, h, hok, hrel, hd, hdo, htr2]

/-- Witness for C1: a two-response scripted server; the author has no
relations, so the trace is the author GET followed directly by the author
DELETE under the captured (absent, hence wildcard) token. -/
def aResp : Resp := ⟨true, 200, none, .auth dAuthor, []⟩

def aServer : Server Nat :=
  ⟨fun s _ => ([aResp, ⟨true, 200, none, .empty, []⟩].getD s ⟨false, 500, none, .empty, []⟩, s + 1)⟩

theorem deleteAuthorAggressive_order_witness :
    ∃ segsP segsB rest,
      (deleteAuthorAggressive aServer 7 0).2.2
        = getReq (Path.author 7) :: (segsP.flatten ++ segsB.flatten ++ rest) ∧
      Segmented Path.prize (dAuthor.prizes.getD []) segsP ∧
      Segmented Path.book (dAuthor.books.getD []) segsB ∧
      ((rest = [] ∧ ∃ e, (deleteAuthorAggressive aServer 7 0).1 = Except.error e) ∨
        rest = [delReq (Path.author 7) wildcard]) :=
  deleteAuthorAggressive_order aServer 0 1 7 aResp rfl rfl

/-- C2: if the relation phase (prizes then books) raises, no DELETE request
for the author is ever issued, the author list in the UI state is unchanged,
and the busy marker is cleared by `handleDelete` on every run, success or
failure. -/
theorem cascade_abort {σ : Type} (sv : Server σ) (s s1 : σ) (aid : Nat)
    (rg : Resp) (e : Err) (ui : UIState)
    (h : sv.step s (getReq (Path.author aid)) = (rg, s1)) (hok : rg.ok = true)
    (hfail : (relationsPhase sv rg.body.toAuthor s1).1 = Except.error e) :
    (∀ q ∈ (deleteAuthorAggressive sv aid s).2.2,
      ¬(q.method = Method.DELETE ∧ q.path = Path.author aid)) ∧
    (handleDelete sv aid ui s).1.authors = ui.authors ∧
    (∀ (sv2 : Server σ) (s2 : σ) (id2 : Nat) (ui2 : UIState),
      (handleDelete sv2 id2 ui2 s2).1.deletingId = none) := by
  rcases hrel : relationsPhase sv rg.body.toAuthor s1 with ⟨res, s2, t⟩
  rw [hrel] at hfail
  have hres : res = Except.error e := hfail
  subst hres
  have hDA : deleteAuthorAggressive sv aid s
      = (Except.error e, s2, getReq (Path.author aid) :: t) := by
    simp [deleteAuthorAggressive, h, hok, hrel]
  have hpaths : ∀ q ∈ t, (∃ i, q.path = Path.prize i) ∨ (∃ i, q.path = Path.book i) := by
    have h0 := relationsPhase_trace_paths sv rg.body.toAuthor s1
    rw [hrel] at h0
    exact h0
  refine ⟨?_, ?_, ?_⟩
  · rw [hDA]
    intro q hq hcontra
    rcases List.mem_cons.mp hq with rfl | hq
    · exact Method.noConfusion hcontra.1
    · rcases hpaths q hq with ⟨i, hpi⟩ | ⟨i, hbi⟩
      · rw [hpi] at hcontra
        exact Path.noConfusion hcontra.2
      · rw [hbi] at hcontra
        exact Path.noConfusion hcontra.2
  · simp [handleDelete, hDA]
  · intro sv2 s2x id2 ui2
    rcases hda : deleteAuthorAggressive sv2 id2 s2x with ⟨r, sx, tx⟩
    cases r <;> simp [handleDelete, hda]

/-- Witness server for C2: the author has one prize whose initial GET fails,
so the first detach attempt raises. -/
def a1 : Author := ⟨7, [], [], [], [], none, some [⟨5, none⟩]⟩

def bServer : Server Nat :=
  ⟨fun s _ => ([⟨true, 200, none, .auth a1, []⟩].getD s ⟨false, 500, none, .empty, []⟩, s + 1)⟩

theorem cascade_abort_witness :
    (handleDelete bServer 7 ⟨[a1], none⟩ 0).1.authors = [a1] :=
  (cascade_abort bServer 0 1 7 ⟨true, 200, none, .auth a1, []⟩
    (.getFailed (Path.prize 5) 500) ⟨[a1], none⟩ rfl rfl rfl).2.1

/-- C5: the helper `updateJsonWithETag` throws exactly when the initial GET fails; on a
successful GET it performs exactly one GET and one PUT (in that order,
against the target path), the PUT carries `If-Match` equal to the normalized
GET token or the wildcard, and the raw PUT response is returned whether or
not the write succeeded. -/
theorem updateJsonWithETag_spec {σ : Type} (sv : Server σ) (p : Path)
    (m : Entity → Entity) (s s1 : σ) (rg : Resp)
    (h : sv.step s (getReq p) = (rg, s1)) :
    ((∃ e, (updateJsonWithETag sv p m s).1 = Except.error e) ↔ rg.ok = false) ∧
    (rg.ok = true →
      (updateJsonWithETag sv p m s).1
        = Except.ok (sv.step s1
            (putReq p ((normalizeETag rg.etag).getD wildcard)
              (m rg.body.toEntity))).1 ∧
      (updateJsonWithETag sv p m s).2.2
        = [getReq p,
            putReq p ((normalizeETag rg.etag).getD wildcard)
              (m rg.body.toEntity)]) := by
  rcases hp : sv.step s1
      (putReq p ((normalizeETag rg.etag).getD wildcard) (m rg.body.toEntity))
    with ⟨rp, s2⟩
  by_cases hok : rg.ok
  · have hU : updateJsonWithETag sv p m s
        = (Except.ok rp, s2,
            [getReq p,
              putReq p ((normalizeETag rg.etag).getD wildcard)
                (m rg.body.toEntity)]) := by
      simp [updateJsonWithETag, h, hok, hp]
    rw [hU]
    refine ⟨⟨?_, ?_⟩, ?_⟩
    · rintro ⟨e, he⟩
      exact absurd he (by simp)
    · intro hcon
      rw [hok] at hcon
      exact absurd hcon (by decide)
    · intro _
      exact ⟨rfl, rfl⟩
  · have hU : updateJsonWithETag sv p m s
        = (Except.error (Err.getFailed p rg.status), s1, [getReq p]) := by
      simp [updateJsonWithETag, h, hok]
    rw [hU]
    refine ⟨⟨fun _ => by simpa using hok, fun _ => ⟨_, rfl⟩⟩, fun hcon => ?_⟩
    rw [hcon] at hok
    exact absurd rfl hok

/-- Witness server for C5: GET succeeds with token `x`, PUT succeeds. -/
def cResp : Resp := ⟨true, 200, some ['x'], .ent dEnt, []⟩

def cServer : Server Nat :=
  ⟨fun s _ => ([cResp, ⟨true, 200, none, .empty, []⟩].getD s ⟨false, 500, none, .empty, []⟩, s + 1)⟩

theorem updateJsonWithETag_spec_witness :
    (updateJsonWithETag cServer (Path.book 1) attempt1 0).2.2
      = [getReq (Path.book 1),
          putReq (Path.book 1) ['"', 'x', '"'] (attempt1 dEnt)] := by
  have h := (updateJsonWithETag_spec cServer (Path.book 1) attempt1 0 1 cResp rfl).2 rfl
  rw [h.2]
  rfl

/-- C3: the detach-attempt loop tries the strategies in fixed order and stops
at the first successful write: when the server rejects the strategy-1 write
and accepts the strategy-2 write, exactly two write attempts (each one GET
and one PUT) occur, strategy 3 is never attempted, and the deletion step
still runs. -/
theorem detach_first_success {σ : Type} (sv : Server σ) (p : Path)
    (s s1 s2 s3 s4 : σ) (r1 r2 r3 r4 : Resp) (q1 q2 : Request)
    (h1 : sv.step s (getReq p) = (r1, s1)) (h1ok : r1.ok = true)
    (hq1 : q1 = putReq p ((normalizeETag r1.etag).getD wildcard)
      (attempt1 r1.body.toEntity))
    (h2 : sv.step s1 q1 = (r2, s2)) (h2ok : r2.ok = false)
    (h3 : sv.step s2 (getReq p) = (r3, s3)) (h3ok : r3.ok = true)
    (hq2 : q2 = putReq p ((normalizeETag r3.etag).getD wildcard)
      (attempt2 r3.body.toEntity))
    (h4 : sv.step s3 q2 = (r4, s4)) (h4ok : r4.ok = true) :
    runAttempts sv p attempts s
      = (Except.ok (), s4, [getReq p, q1, getReq p, q2]) ∧
    (detachAuthorAndDelete sv p s).2.2
      = [getReq p, q1, getReq p, q2] ++ (fetchETag sv p s4).2.2
        ++ [delReq p ((fetchETag sv p s4).1.getD wildcard)] := by
  subst hq1
  subst hq2
  have hA : runAttempts sv p attempts s
      = (Except.ok (), s4,
          [getReq p,
            putReq p ((normalizeETag r1.etag).getD wildcard)
              (attempt1 r1.body.toEntity),
            getReq p,
            putReq p ((normalizeETag r3.etag).getD wildcard)
              (attempt2 r3.body.toEntity)]) := by
    simp [runAttempts, attempts, updateJsonWithETag, h1, h1ok, h2, h2ok, h3,
      h3ok, h4, h4ok]
  rcases hf : fetchETag sv p s4 with ⟨tok, s5, tf⟩
  rcases hd : sv.step s5 (delReq p (tok.getD wildcard)) with ⟨rd, s6⟩
  refine ⟨hA, ?_⟩
  by_cases hdo : rd.ok <;>
    simp [detachAuthorAndDelete, hA, hf, hd, hdo]

/-- Witness servers for C3/C4: scripted responses, request-independent. -/
def gResp : Resp := ⟨true, 200, none, .ent dEnt, []⟩

def pFail : Resp := ⟨false, 412, none, .empty, []⟩

def okResp : Resp := ⟨true, 200, none, .empty, []⟩

def dServer : Server Nat :=
  ⟨fun s _ => ([gResp, pFail, gResp, okResp, okResp, okResp].getD s pFail, s + 1)⟩

theorem detach_first_success_witness :
    runAttempts dServer (Path.book 2) attempts 0
      = (Except.ok (), 4,
          [getReq (Path.book 2), putReq (Path.book 2) wildcard (attempt1 dEnt),
            getReq (Path.book 2), putReq (Path.book 2) wildcard (attempt2 dEnt)]) :=
  (detach_first_success dServer (Path.book 2) 0 1 2 3 4 gResp pFail gResp okResp
    (putReq (Path.book 2) wildcard (attempt1 dEnt))
    (putReq (Path.book 2) wildcard (attempt2 dEnt))
    rfl rfl rfl rfl rfl rfl rfl rfl rfl rfl).1

/-- C4: when all three detach strategies' writes fail, the DELETE for the
resource is still attempted exactly once, its `If-Match` is a freshly
fetched token (fetched after the attempts) or the wildcard, and a non-ok
DELETE response raises an error carrying the HTTP status and response
body. -/
theorem detach_all_fail {σ : Type} (sv : Server σ) (p : Path)
    (s s1 s2 s3 s4 s5 s6 : σ) (r1 r2 r3 r4 r5 r6 : Resp) (q1 q2 q3 : Request)
    (h1 : sv.step s (getReq p) = (r1, s1)) (h1ok : r1.ok = true)
    (hq1 : q1 = putReq p ((normalizeETag r1.etag).getD wildcard)
      (attempt1 r1.body.toEntity))
    (h2 : sv.step s1 q1 = (r2, s2)) (h2ok : r2.ok = false)
    (h3 : sv.step s2 (getReq p) = (r3, s3)) (h3ok : r3.ok = true)
    (hq2 : q2 = putReq p ((normalizeETag r3.etag).getD wildcard)
      (attempt2 r3.body.toEntity))
    (h4 : sv.step s3 q2 = (r4, s4)) (h4ok : r4.ok = false)
    (h5 : sv.step s4 (getReq p) = (r5, s5)) (h5ok : r5.ok = true)
    (hq3 : q3 = putReq p ((normalizeETag r5.etag).getD wildcard)
      (attempt3 r5.body.toEntity))
    (h6 : sv.step s5 q3 = (r6, s6)) (h6ok : r6.ok = false) :
    (detachAuthorAndDelete sv p s).2.2
      = [getReq p, q1, getReq p, q2, getReq p, q3] ++ (fetchETag sv p s6).2.2
        ++ [delReq p ((fetchETag sv p s6).1.getD wildcard)] ∧
    ((detachAuthorAndDelete sv p s).2.2.filter
        (fun q => decide (q.method = Method.DELETE))).length = 1 ∧
    ((sv.step (fetchETag sv p s6).2.1
        (delReq p ((fetchETag sv p s6).1.getD wildcard))).1.ok = false →
      (detachAuthorAndDelete sv p s).1
        = Except.error (Err.deleteFailed p
            (sv.step (fetchETag sv p s6).2.1
              (delReq p ((fetchETag sv p s6).1.getD wildcard))).1.status
            (sv.step (fetchETag sv p s6).2.1
              (delReq p ((fetchETag sv p s6).1.getD wildcard))).1.text)) := by
  subst hq1
  subst hq2
  subst hq3
  have hA : runAttempts sv p attempts s
      = (Except.ok (), s6,
          [getReq p,
            putReq p ((normalizeETag r1.etag).getD wildcard)
              (attempt1 r1.body.toEntity),
            getReq p,
            putReq p ((normalizeETag r3.etag).getD wildcard)
              (attempt2 r3.body.toEntity),
            getReq p,
            putReq p ((normalizeETag r5.etag).getD wildcard)
              (attempt3 r5.body.toEntity)]) := by
    simp [runAttempts, attempts, updateJsonWithETag, h1, h1ok, h2, h2ok, h3,
      h3ok, h4, h4ok, h5, h5ok, h6, h6ok]
  have hftrace := fetchETag_trace sv p s6
  rcases hf : fetchETag sv p s6 with ⟨tok, s7, tf⟩
  rw [hf] at hftrace
  rcases hd : sv.step s7 (delReq p (tok.getD wildcard)) with ⟨rd, s8⟩
  have htr : (detachAuthorAndDelete sv p s).2.2
      = [getReq p,
          putReq p ((normalizeETag r1.etag).getD wildcard)
            (attempt1 r1.body.toEntity),
          getReq p,
          putReq p ((normalizeETag r3.etag).getD wildcard)
            (attempt2 r3.body.toEntity),
          getReq p,
          putReq p ((normalizeETag r5.etag).getD wildcard)
            (attempt3 r5.body.toEntity)] ++ tf
        ++ [delReq p (tok.getD wildcard)] := by
    by_cases hdo : rd.ok <;>
      simp [detachAuthorAndDelete, hA, hf, hd, hdo]
  refine ⟨htr, ?_, ?_⟩
  · rw [htr, List.filter_append, List.filter_append]
    have htf : tf.filter (fun q => decide (q.method = Method.DELETE)) = [] := by
      rw [List.filter_eq_nil_iff]
      intro q hq
      rcases (hftrace q hq).2 with hm | hm <;> simp [hm]
    rw [htf]
    simp [getReq, putReq, delReq]
  · intro hdo
    have hdo2 : rd.ok = false := hdo
    simp [detachAuthorAndDelete, hA, hf, hd, hdo2]

def eServer : Server Nat :=
  ⟨fun s _ =>
    ([gResp, pFail, gResp, pFail, gResp, pFail, okResp, okResp].getD s pFail,
      s + 1)⟩

theorem detach_all_fail_witness :
    ((detachAuthorAndDelete eServer (Path.prize 3) 0).2.2.filter
        (fun q => decide (q.method = Method.DELETE))).length = 1 :=
  (detach_all_fail eServer (Path.prize 3) 0 1 2 3 4 5 6 gResp pFail gResp pFail
    gResp pFail
    (putReq (Path.prize 3) wildcard (attempt1 dEnt))
    (putReq (Path.prize 3) wildcard (attempt2 dEnt))
    (putReq (Path.prize 3) wildcard (attempt3 dEnt))
    rfl rfl rfl rfl rfl rfl rfl rfl rfl rfl rfl rfl rfl rfl rfl).2.1

/-! ## Heap model for the defensive copy (C6)

`updateJsonWithETag` applies the caller-supplied `mutate` — an in-place
field-assigning function in the source — to `structuredClone(current)`, never
to `current` itself.  The JavaScript heap is modelled as a list of entities
addressed by index; `structuredClone` allocates a fresh cell. -/

abbrev Heap : Type := List Entity

/-- Read the object at address `a`. -/
def heapGet (h : Heap) (a : Nat) : Entity := List.getD h a dEnt

/-- Model of `structuredClone(current)` : allocate a fresh cell holding a copy. -/
def heapClone (h : Heap) (a : Nat) : Heap × Nat := (h ++ [heapGet h a], h.length)

/-- Run an in-place mutation at address `a`. -/
def mutateAt (h : Heap) (a : Nat) (f : Entity → Entity) : Heap :=
  List.set h a (f (heapGet h a))

/-- Model of `const payload = mutate(structuredClone(current))` (line 75): clone, then
mutate the clone in place; returns the new heap and the payload address. -/
def clonePayloadStep (h : Heap) (a : Nat) (f : Entity → Entity) : Heap × Nat :=
  match heapClone h a with
  | (h1, a1) => (mutateAt h1 a1 f, a1)

/-- C6: for every heap, fetched object and transformation, the mutation acts
on a fresh address, the fetched object is unchanged afterwards, and the
payload equals the transformation applied to a copy of the fetched object. -/
theorem clonePayload_no_mutation (h : Heap) (a : Nat) (f : Entity → Entity)
    (ha : a < List.length h) :
    heapGet (clonePayloadStep h a f).1 a = heapGet h a ∧
    (clonePayloadStep h a f).2 ≠ a ∧
    heapGet (clonePayloadStep h a f).1 (clonePayloadStep h a f).2
      = f (heapGet h a) := by
  have hne : List.length h ≠ a := Nat.ne_of_gt ha
  refine ⟨?_, hne, ?_⟩
  · show heapGet (mutateAt (h ++ [heapGet h a]) (List.length h) f) a = heapGet h a
    unfold heapGet mutateAt
    rw [List.getD_eq_getElem?_getD, List.getElem?_set_ne hne,
      List.getElem?_append_left ha, ← List.getD_eq_getElem?_getD]
  · show heapGet (mutateAt (h ++ [heapGet h a]) (List.length h) f) (List.length h)
      = f (heapGet h a)
    have hcopy : heapGet (h ++ [heapGet h a]) (List.length h) = heapGet h a := by
      unfold heapGet
      rw [List.getD_eq_getElem?_getD, List.getElem?_append_right (Nat.le_refl _)]
      simp
    unfold mutateAt
    rw [hcopy]
    unfold heapGet
    rw [List.getD_eq_getElem?_getD, List.getElem?_set_self
      (by simp [List.length_append])]
    rfl

/-- Witness for C6 on a one-cell heap and detach strategy 1. -/
theorem clonePayload_no_mutation_witness :
    heapGet (clonePayloadStep [dEnt] 0 attempt1).1 0 = heapGet [dEnt] 0 ∧
    (clonePayloadStep [dEnt] 0 attempt1).2 ≠ 0 ∧
    heapGet (clonePayloadStep [dEnt] 0 attempt1).1 (clonePayloadStep [dEnt] 0 attempt1).2
      = attempt1 (heapGet [dEnt] 0) :=
  clonePayload_no_mutation [dEnt] 0 attempt1 (by decide)

end BookstoreFront
